import Mathlib

/-! planning::MathUtils: angle normalisation, interpolation and curvature.

Shallow embedding of `motion_planning/common/src/math_utils.cpp`.

The C++ routines work on `double`.  They are embedded over an arbitrary linearly
ordered field with a floor function, so that the very same definitions evaluate on
`ℚ` and are reasoned about on `ℝ`.  The two library facilities the file relies on
are made explicit:

* the constant `M_PI` of `<cmath>` is an argument of every routine that uses it; the
  theorems instantiate it with `Real.pi`;
* `std::sqrt` is an argument of the curvature routines; the theorems instantiate it
  with `Real.sqrt`.

`std::fmod x y` is `x - y * trunc (x / y)`, with `trunc` rounding toward zero.
-/

namespace planning
namespace MathUtils

/-! ## Definitions -/

section Scalars

variable {α : Type} [LinearOrderedField α] [FloorRing α]

/-- Rounding toward zero: the integer part of `q`. -/
def trunc (q : α) : ℤ := if 0 ≤ q then ⌊q⌋ else ⌈q⌉

/-- The function `std::fmod`: the remainder of `x / y` with the sign of `x`. -/
def fmod (x y : α) : α := x - y * (trunc (x / y) : α)

/-- The method `MathUtils::NormalizeAngle` (math_utils.cpp, lines 6-12). -/
def NormalizeAngle (M_PI : α) (angle : α) : α :=
  let a := fmod (angle + M_PI) (2 * M_PI)
  let a := if a < 0 then a + 2 * M_PI else a
  a - M_PI

/-- The method `MathUtils::CalcAngleDist` (math_utils.cpp, line 14). -/
def CalcAngleDist (M_PI : α) (from_ to_ : α) : α := NormalizeAngle M_PI (to_ - from_)

/-- The method `MathUtils::slerp` (math_utils.cpp, lines 16-33). -/
def slerp (M_PI : α) (a0 t0 a1 t1 t : α) : α :=
  if |t1 - t0| ≤ 1e-6 then NormalizeAngle M_PI a0
  else
    let a0_n := NormalizeAngle M_PI a0
    let a1_n := NormalizeAngle M_PI a1
    let d := a1_n - a0_n
    let d := if d > M_PI then d - 2 * M_PI else if d < -M_PI then d + 2 * M_PI else d
    let r := (t - t0) / (t1 - t0)
    let a := a0_n + d * r
    NormalizeAngle M_PI a

/-- The local `d` of `MathUtils::slerp` after its fold (math_utils.cpp, lines 21-28):
the difference of the two normalised angles, moved by one period when it leaves
`[-M_PI, M_PI]`.  Used to state lemmas about `slerp`. -/
def foldedDiff (M_PI a0 a1 : α) : α :=
  let d := NormalizeAngle M_PI a1 - NormalizeAngle M_PI a0
  if d > M_PI then d - 2 * M_PI else if d < -M_PI then d + 2 * M_PI else d

end Scalars

section Linear

variable {α : Type} [LinearOrderedField α]

/-- The method `MathUtils::lerp` (math_utils.cpp, lines 55-64). -/
def lerp (x0 t0 x1 t1 t : α) : α :=
  if |t1 - t0| ≤ 1e-6 then x0
  else
    let ratio := (t - t0) / (t1 - t0)
    let x := x0 + ratio * (x1 - x0)
    x

end Linear

section Messages

/-- Modelled from the spec: the message type `planning_msgs::PathPoint`, whose generated
header is not part of the sources; the fields are those of the data model,
`x, y, s, theta, kappa, dkappa`. -/
structure PathPoint (α : Type) where
  x : α
  y : α
  s : α
  theta : α
  kappa : α
  dkappa : α

/-- Modelled from the spec: the message type `planning_msgs::TrajectoryPoint`, whose
generated header is not part of the sources; the fields are those of the data model,
`path_point, relative_time, vel, acc, jerk, steer_angle`. -/
structure TrajectoryPoint (α : Type) where
  path_point : PathPoint α
  relative_time : α
  vel : α
  acc : α
  jerk : α
  steer_angle : α

variable {α : Type} [LinearOrderedField α] [FloorRing α]

/-- The method `MathUtils::InterpolateTrajectoryPoint` (math_utils.cpp, lines 35-54). -/
def InterpolateTrajectoryPoint (M_PI : α) (p0 p1 : TrajectoryPoint α) (time : α) :
    TrajectoryPoint α :=
  let t0 := p0.relative_time
  let t1 := p1.relative_time
  { relative_time := time
    vel := lerp p0.vel t0 p1.vel t1 time
    acc := lerp p0.acc t0 p1.acc t1 time
    jerk := lerp p0.jerk t0 p1.jerk t1 time
    steer_angle := lerp p0.steer_angle t0 p1.steer_angle t1 time
    path_point :=
      { x := lerp p0.path_point.x t0 p1.path_point.x t1 time
        y := lerp p0.path_point.y t0 p1.path_point.y t1 time
        s := lerp p0.path_point.s t0 p1.path_point.s t1 time
        theta := slerp M_PI p0.path_point.theta t0 p1.path_point.theta t1 time
        kappa := lerp p0.path_point.kappa t0 p1.path_point.kappa t1 time
        dkappa := lerp p0.path_point.dkappa t0 p1.path_point.dkappa t1 time } }

end Messages

section Curvature

variable {α : Type} [Field α]

/-- The method `MathUtils::CalcKappa` (math_utils.cpp, lines 66-71); `sqrt` stands for
`std::sqrt`. -/
def CalcKappa (sqrt : α → α) (dx dy ddx ddy : α) : α :=
  let u := dx * ddy - dy * ddx
  let v := dx * dx + dy * dy
  let sqrt_v := sqrt v
  u / (v * sqrt_v)

/-- The method `MathUtils::CalcDKappa` (math_utils.cpp, lines 73-80); `sqrt` stands for
`std::sqrt`. -/
def CalcDKappa (sqrt : α → α) (dx dy ddx ddy dddx dddy : α) : α :=
  let a := dx * dddy - dy * dddx
  let b := dx * dx + dy * dy
  let c := dx * ddy - dy * ddx
  let d := dx * ddx + dy * ddy
  let sqrt_b := sqrt b
  (a * b - 3 * c * d) / (b * b * sqrt_b)

/-- The divisor `v * sqrt_v` of the division in `MathUtils::CalcKappa`
(math_utils.cpp, lines 68-70). -/
def CalcKappaDivisor (sqrt : α → α) (dx dy : α) : α :=
  let v := dx * dx + dy * dy
  let sqrt_v := sqrt v
  v * sqrt_v

/-- The divisor `b * b * sqrt_b` of the division in `MathUtils::CalcDKappa`
(math_utils.cpp, lines 75-79). -/
def CalcDKappaDivisor (sqrt : α → α) (dx dy : α) : α :=
  let b := dx * dx + dy * dy
  let sqrt_b := sqrt b
  b * b * sqrt_b

end Curvature

section SampleCurve

/-- First coordinate of the sample curve `t ↦ (2 t, t ^ 3)`, on which the curvature
routines are evaluated. -/
def sampleCurveX (t : ℝ) : ℝ := 2 * t

/-- Second coordinate of the sample curve `t ↦ (2 t, t ^ 3)`. -/
def sampleCurveY (t : ℝ) : ℝ := t ^ 3

end SampleCurve

section Geometry

variable {α : Type} [Field α]

/-- The library type `Eigen::Vector2d`: a vector of two coordinates. -/
structure Vector2d (α : Type) where
  x : α
  y : α

/-- The library type `Eigen::Vector3d`: a vector of three coordinates. -/
structure Vector3d (α : Type) where
  x : α
  y : α
  z : α

/-- Coordinatewise difference of `Eigen::Vector2d` values. -/
instance : Sub (Vector2d α) := ⟨fun a b => ⟨a.x - b.x, a.y - b.y⟩⟩

/-- The library type `geometry_msgs::Point`. -/
structure Point (α : Type) where
  x : α
  y : α
  z : α

/-- The library type `geometry_msgs::Quaternion`, the orientation field of a pose. -/
structure Orientation (α : Type) where
  x : α
  y : α
  z : α
  w : α

/-- The library type `geometry_msgs::Pose`. -/
structure Pose (α : Type) where
  position : Point α
  orientation : Orientation α

/-- The library type `Eigen::Quaternion<double>`, built from `(w, x, y, z)`. -/
structure Quaterniond (α : Type) where
  w : α
  x : α
  y : α
  z : α

/-- The library method `Eigen::Quaternion::toRotationMatrix`, which does not normalise
the quaternion. -/
def Quaterniond.toRotationMatrix (q : Quaterniond α) : Matrix (Fin 3) (Fin 3) α :=
  let tx := 2 * q.x
  let ty := 2 * q.y
  let tz := 2 * q.z
  let twx := tx * q.w
  let twy := ty * q.w
  let twz := tz * q.w
  let txx := tx * q.x
  let txy := ty * q.x
  let txz := tz * q.x
  let tyy := ty * q.y
  let tyz := tz * q.y
  let tzz := tz * q.z
  !![1 - (tyy + tzz), txy - twz, txz + twy;
     txy + twz, 1 - (txx + tzz), tyz - twx;
     txz - twy, tyz + twx, 1 - (txx + tyy)]

/-- The method `MathUtils::Transform` (math_utils.cpp, lines 82-98). -/
def Transform (base_transform : Pose α) (in_point : Vector3d α) : Vector3d α :=
  let quaternion : Quaterniond α :=
    ⟨base_transform.orientation.w, base_transform.orientation.x,
      base_transform.orientation.y, base_transform.orientation.z⟩
  let R := quaternion.toRotationMatrix
  let transitional_matrix : Matrix (Fin 4) (Fin 4) α :=
    !![R 0 0, R 0 1, R 0 2, base_transform.position.x;
       R 1 0, R 1 1, R 1 2, base_transform.position.y;
       R 2 0, R 2 1, R 2 2, base_transform.position.z;
       0, 0, 0, 1]
  let transitional_point : Fin 4 → α := ![in_point.x, in_point.y, in_point.z, 1]
  let out_transitional_point := transitional_matrix.mulVec transitional_point
  ⟨out_transitional_point 0, out_transitional_point 1, out_transitional_point 2⟩

/-- The method `MathUtils::CrossProd` (math_utils.cpp, lines 100-106). -/
def CrossProd (start_point end_point1 end_point2 : Vector2d α) : α :=
  let vec_1 := end_point1 - start_point
  let vec_2 := end_point2 - start_point
  vec_1.x * vec_2.y - vec_1.y * vec_2.x

end Geometry

/-! ## Normalisation: the floor characterisation -/

section NormalizeLemmas

variable {α : Type} [LinearOrderedField α] [FloorRing α]

/-- Folding a negative `fmod` remainder up by one period gives the floor remainder. -/
theorem fmod_fold_eq_floor (x y : α) (hy : 0 < y) :
    (if fmod x y < 0 then fmod x y + y else fmod x y) = x - y * (⌊x / y⌋ : α) := by
  have hfl : y * (⌊x / y⌋ : α) ≤ x := by
    have := Int.floor_le (x / y)
    calc y * (⌊x / y⌋ : α) ≤ y * (x / y) := mul_le_mul_of_nonneg_left this hy.le
      _ = x := mul_div_cancel₀ x hy.ne'
  have hce : x ≤ y * (⌈x / y⌉ : α) := by
    have := Int.le_ceil (x / y)
    calc x = y * (x / y) := (mul_div_cancel₀ x hy.ne').symm
      _ ≤ y * (⌈x / y⌉ : α) := mul_le_mul_of_nonneg_left this hy.le
  unfold fmod trunc
  by_cases hq : 0 ≤ x / y
  · rw [if_pos hq, if_neg (by linarith)]
  · rw [if_neg hq]
    by_cases hlt : x - y * (⌈x / y⌉ : α) < 0
    · rw [if_pos hlt]
      have hne : (⌊x / y⌋ : α) ≠ x / y := by
        intro h
        have h2 : (⌈x / y⌉ : ℤ) = ⌊x / y⌋ := by
          rw [← h, Int.ceil_intCast, Int.floor_intCast]
        rw [h2, h, mul_div_cancel₀ x hy.ne'] at hlt
        linarith
      have hlt2 : (⌊x / y⌋ : α) < x / y := lt_of_le_of_ne (Int.floor_le _) hne
      have h3 : ⌈x / y⌉ = ⌊x / y⌋ + 1 := by
        apply le_antisymm
        · exact Int.ceil_le_floor_add_one _
        · have : ⌊x / y⌋ < ⌈x / y⌉ := by
            rw [Int.lt_ceil]; exact hlt2
          omega
      rw [h3]; push_cast; ring
    · rw [if_neg hlt]
      have heq : x = y * (⌈x / y⌉ : α) := le_antisymm hce (by linarith)
      have hq2 : x / y = (⌈x / y⌉ : α) := by
        rw [div_eq_iff hy.ne', mul_comm]; exact heq
      have h3 : ⌊x / y⌋ = ⌈x / y⌉ := by
        conv_lhs => rw [hq2]
        exact Int.floor_intCast _
      rw [h3]

/-- For a positive `M_PI`, `NormalizeAngle` subtracts `⌊(θ + M_PI) / (2 M_PI)⌋` periods. -/
theorem NormalizeAngle_eq_floor (M_PI : α) (hpi : 0 < M_PI) (θ : α) :
    NormalizeAngle M_PI θ = θ - 2 * M_PI * (⌊(θ + M_PI) / (2 * M_PI)⌋ : α) := by
  have h := fmod_fold_eq_floor (θ + M_PI) (2 * M_PI) (by linarith)
  unfold NormalizeAngle
  simp only
  rw [h]; ring

/-- The result of `NormalizeAngle` lies in `[-M_PI, M_PI)`. -/
theorem NormalizeAngle_mem_Ico (M_PI : α) (hpi : 0 < M_PI) (θ : α) :
    -M_PI ≤ NormalizeAngle M_PI θ ∧ NormalizeAngle M_PI θ < M_PI := by
  have h2 : (0 : α) < 2 * M_PI := by linarith
  rw [NormalizeAngle_eq_floor M_PI hpi]
  have hlo := Int.floor_le ((θ + M_PI) / (2 * M_PI))
  have hhi := Int.lt_floor_add_one ((θ + M_PI) / (2 * M_PI))
  rw [le_div_iff₀ h2] at hlo
  rw [div_lt_iff₀ h2] at hhi
  constructor <;> nlinarith

/-- Shifting the argument by whole periods does not change `NormalizeAngle`. -/
theorem NormalizeAngle_add_period (M_PI : α) (hpi : 0 < M_PI) (θ : α) (k : ℤ) :
    NormalizeAngle M_PI (θ + 2 * M_PI * (k : α)) = NormalizeAngle M_PI θ := by
  have h2 : (2 * M_PI) ≠ 0 := by positivity
  rw [NormalizeAngle_eq_floor M_PI hpi, NormalizeAngle_eq_floor M_PI hpi]
  have : (θ + 2 * M_PI * (k : α) + M_PI) / (2 * M_PI) = (θ + M_PI) / (2 * M_PI) + (k : α) := by
    field_simp; ring
  rw [this, Int.floor_add_int]
  push_cast; ring

/-- An angle already in `[-M_PI, M_PI)` is left unchanged. -/
theorem NormalizeAngle_of_mem_Ico (M_PI : α) (hpi : 0 < M_PI) (θ : α)
    (hlo : -M_PI ≤ θ) (hhi : θ < M_PI) : NormalizeAngle M_PI θ = θ := by
  have h2 : (0 : α) < 2 * M_PI := by linarith
  rw [NormalizeAngle_eq_floor M_PI hpi]
  have : ⌊(θ + M_PI) / (2 * M_PI)⌋ = 0 := by
    rw [Int.floor_eq_iff]
    constructor
    · simp only [Int.cast_zero]; apply div_nonneg <;> linarith
    · simp only [Int.cast_zero, zero_add]; rw [div_lt_one h2]; linarith
  rw [this]; simp

/-- Angles that differ by whole periods have the same normal form. -/
theorem NormalizeAngle_congr (M_PI : α) (hpi : 0 < M_PI) (x y : α) (k : ℤ)
    (h : x = y + 2 * M_PI * (k : α)) : NormalizeAngle M_PI x = NormalizeAngle M_PI y := by
  rw [h, NormalizeAngle_add_period M_PI hpi]

/-- The normal form differs from the angle by whole periods. -/
theorem NormalizeAngle_eq_add_period (M_PI : α) (hpi : 0 < M_PI) (θ : α) :
    ∃ k : ℤ, NormalizeAngle M_PI θ = θ + 2 * M_PI * (k : α) := by
  refine ⟨-⌊(θ + M_PI) / (2 * M_PI)⌋, ?_⟩
  rw [NormalizeAngle_eq_floor M_PI hpi]
  push_cast; ring

/-- On `[-M_PI, M_PI]` normalisation keeps the magnitude (the endpoint `M_PI` goes to
`-M_PI`). -/
theorem abs_NormalizeAngle_of_abs_le (M_PI : α) (hpi : 0 < M_PI) (x : α) (hx : |x| ≤ M_PI) :
    |NormalizeAngle M_PI x| = |x| := by
  rcases abs_le.mp hx with ⟨hlo, hhi⟩
  rcases lt_or_eq_of_le hhi with hlt | heq
  · rw [NormalizeAngle_of_mem_Ico M_PI hpi x hlo hlt]
  · have h1 : NormalizeAngle M_PI x = NormalizeAngle M_PI (-M_PI) :=
      NormalizeAngle_congr M_PI hpi x (-M_PI) 1 (by rw [heq]; push_cast; ring)
    rw [h1, NormalizeAngle_of_mem_Ico M_PI hpi (-M_PI) le_rfl (by linarith), heq, abs_neg]

/-- The normal form has magnitude at most `M_PI`. -/
theorem abs_NormalizeAngle_le (M_PI : α) (hpi : 0 < M_PI) (θ : α) :
    |NormalizeAngle M_PI θ| ≤ M_PI := by
  have h := NormalizeAngle_mem_Ico M_PI hpi θ
  exact abs_le.mpr ⟨h.1, h.2.le⟩

/-- The normal form is a representative of least magnitude. -/
theorem abs_NormalizeAngle_le_abs_add_period (M_PI : α) (hpi : 0 < M_PI) (x : α) (k : ℤ) :
    |NormalizeAngle M_PI x| ≤ |x + 2 * M_PI * (k : α)| := by
  obtain ⟨m, hm⟩ := NormalizeAngle_eq_add_period M_PI hpi x
  have hle := abs_NormalizeAngle_le M_PI hpi x
  by_cases hj : k = m
  · rw [hm, hj]
  · have hj1 : (1 : ℤ) ≤ |k - m| := Int.one_le_abs (sub_ne_zero.mpr hj)
    have hj2 : (1 : α) ≤ |((k - m : ℤ) : α)| := by
      rw [← Int.cast_abs]; exact_mod_cast hj1
    have hsplit : x + 2 * M_PI * (k : α)
        = NormalizeAngle M_PI x + 2 * M_PI * ((k - m : ℤ) : α) := by
      rw [hm]; push_cast; ring
    have hbig : 2 * M_PI ≤ |2 * M_PI * ((k - m : ℤ) : α)| := by
      rw [abs_mul, abs_of_pos (by linarith : (0 : α) < 2 * M_PI)]
      nlinarith
    have htri : |2 * M_PI * ((k - m : ℤ) : α)|
        ≤ |NormalizeAngle M_PI x + 2 * M_PI * ((k - m : ℤ) : α)| + |NormalizeAngle M_PI x| := by
      have := abs_sub (NormalizeAngle M_PI x + 2 * M_PI * ((k - m : ℤ) : α))
        (NormalizeAngle M_PI x)
      simpa using this
    rw [hsplit]
    linarith

end NormalizeLemmas

/-! ## Interpolation: general lemmas -/

section LerpLemmas

variable {α : Type} [LinearOrderedField α]

/-- On a degenerate interval `lerp` holds the first value. -/
theorem lerp_of_degenerate (x0 t0 x1 t1 t : α) (h : |t1 - t0| ≤ 1e-6) :
    lerp x0 t0 x1 t1 t = x0 := by
  unfold lerp
  rw [if_pos h]

/-- Off the degenerate interval `lerp` is the affine interpolant. -/
theorem lerp_of_not_degenerate (x0 t0 x1 t1 t : α) (h : ¬ |t1 - t0| ≤ 1e-6) :
    lerp x0 t0 x1 t1 t = x0 + (t - t0) / (t1 - t0) * (x1 - x0) := by
  unfold lerp
  rw [if_neg h]

/-- At the first sample time `lerp` returns the first value. -/
theorem lerp_at_t0 (x0 t0 x1 t1 : α) : lerp x0 t0 x1 t1 t0 = x0 := by
  by_cases h : |t1 - t0| ≤ 1e-6
  · exact lerp_of_degenerate x0 t0 x1 t1 t0 h
  · rw [lerp_of_not_degenerate x0 t0 x1 t1 t0 h]; simp

/-- The threshold `1e-6` is positive. -/
theorem eps_pos : (0 : α) < 1e-6 := by norm_num

/-- A non-degenerate interval has distinct end times. -/
theorem sub_ne_zero_of_not_degenerate (t0 t1 : α) (h : ¬ |t1 - t0| ≤ 1e-6) : t1 - t0 ≠ 0 := by
  intro h0
  apply h
  rw [h0, abs_zero]
  exact eps_pos.le

/-- At the second sample time of a non-degenerate interval `lerp` returns the second
value. -/
theorem lerp_at_t1 (x0 t0 x1 t1 : α) (h : ¬ |t1 - t0| ≤ 1e-6) :
    lerp x0 t0 x1 t1 t1 = x1 := by
  rw [lerp_of_not_degenerate x0 t0 x1 t1 t1 h,
    div_self (sub_ne_zero_of_not_degenerate t0 t1 h)]
  ring

/-- The interpolation ratio lies in `[0, 1]` when `t` is between the two sample times. -/
theorem ratio_mem_Icc (t0 t1 t : α) (hne : t1 - t0 ≠ 0)
    (hbetween : (t0 ≤ t ∧ t ≤ t1) ∨ (t1 ≤ t ∧ t ≤ t0)) :
    0 ≤ (t - t0) / (t1 - t0) ∧ (t - t0) / (t1 - t0) ≤ 1 := by
  rcases lt_or_gt_of_ne hne with hneg | hpos
  · rcases hbetween with ⟨h1, h2⟩ | ⟨h1, h2⟩
    · linarith
    · constructor
      · exact div_nonneg_of_nonpos (by linarith) hneg.le
      · rw [div_le_one_of_neg hneg]; linarith
  · rcases hbetween with ⟨h1, h2⟩ | ⟨h1, h2⟩
    · constructor
      · exact div_nonneg (by linarith) hpos.le
      · rw [div_le_one hpos]; linarith
    · linarith

end LerpLemmas

section SlerpLemmas

variable {α : Type} [LinearOrderedField α] [FloorRing α]

/-- On a degenerate interval `slerp` returns the normal form of the first angle. -/
theorem slerp_of_degenerate (M_PI a0 t0 a1 t1 t : α) (h : |t1 - t0| ≤ 1e-6) :
    slerp M_PI a0 t0 a1 t1 t = NormalizeAngle M_PI a0 := by
  unfold slerp
  rw [if_pos h]

/-- Off the degenerate interval `slerp` moves from the first normal form along the
folded difference. -/
theorem slerp_of_not_degenerate (M_PI a0 t0 a1 t1 t : α) (h : ¬ |t1 - t0| ≤ 1e-6) :
    slerp M_PI a0 t0 a1 t1 t =
      NormalizeAngle M_PI
        (NormalizeAngle M_PI a0 + foldedDiff M_PI a0 a1 * ((t - t0) / (t1 - t0))) := by
  unfold slerp foldedDiff
  rw [if_neg h]

/-- The folded difference has magnitude at most `M_PI`. -/
theorem abs_foldedDiff_le (M_PI : α) (hpi : 0 < M_PI) (a0 a1 : α) :
    |foldedDiff M_PI a0 a1| ≤ M_PI := by
  have h0 := NormalizeAngle_mem_Ico M_PI hpi a0
  have h1 := NormalizeAngle_mem_Ico M_PI hpi a1
  unfold foldedDiff
  simp only
  rw [abs_le]
  split_ifs with hgt hlt
  · constructor <;> linarith
  · constructor <;> linarith
  · constructor <;> linarith

/-- The folded difference is `a1 - a0` up to whole periods. -/
theorem foldedDiff_eq_add_period (M_PI : α) (hpi : 0 < M_PI) (a0 a1 : α) :
    ∃ k : ℤ, foldedDiff M_PI a0 a1 = a1 - a0 + 2 * M_PI * (k : α) := by
  obtain ⟨k0, hk0⟩ := NormalizeAngle_eq_add_period M_PI hpi a0
  obtain ⟨k1, hk1⟩ := NormalizeAngle_eq_add_period M_PI hpi a1
  unfold foldedDiff
  simp only
  split_ifs with hgt hlt
  · exact ⟨k1 - k0 - 1, by rw [hk0, hk1]; push_cast; ring⟩
  · exact ⟨k1 - k0 + 1, by rw [hk0, hk1]; push_cast; ring⟩
  · exact ⟨k1 - k0, by rw [hk0, hk1]; push_cast; ring⟩

/-- Shortest-arc law of `slerp`, for any positive `M_PI`. -/
theorem abs_CalcAngleDist_slerp (M_PI : α) (hpi : 0 < M_PI) (a0 a1 t0 t1 t : α)
    (h : ¬ |t1 - t0| ≤ 1e-6)
    (hbetween : (t0 ≤ t ∧ t ≤ t1) ∨ (t1 ≤ t ∧ t ≤ t0)) :
    |CalcAngleDist M_PI a0 (slerp M_PI a0 t0 a1 t1 t)| =
      (t - t0) / (t1 - t0) * |CalcAngleDist M_PI a0 a1| := by
  obtain ⟨hr0, hr1⟩ := ratio_mem_Icc t0 t1 t (sub_ne_zero_of_not_degenerate t0 t1 h) hbetween
  have hd := abs_foldedDiff_le M_PI hpi a0 a1
  obtain ⟨kd, hkd⟩ := foldedDiff_eq_add_period M_PI hpi a0 a1
  obtain ⟨k0, hk0⟩ := NormalizeAngle_eq_add_period M_PI hpi a0
  rw [slerp_of_not_degenerate M_PI a0 t0 a1 t1 t h]
  set r := (t - t0) / (t1 - t0) with hr
  set d := foldedDiff M_PI a0 a1 with hdd
  obtain ⟨ks, hks⟩ := NormalizeAngle_eq_add_period M_PI hpi (NormalizeAngle M_PI a0 + d * r)
  have hleft : CalcAngleDist M_PI a0 (NormalizeAngle M_PI (NormalizeAngle M_PI a0 + d * r))
      = NormalizeAngle M_PI (d * r) := by
    unfold CalcAngleDist
    apply NormalizeAngle_congr M_PI hpi _ _ (ks + k0)
    rw [hks, hk0]; push_cast; ring
  have hright : CalcAngleDist M_PI a0 a1 = NormalizeAngle M_PI d := by
    unfold CalcAngleDist
    apply NormalizeAngle_congr M_PI hpi _ _ (-kd)
    rw [hkd]; push_cast; ring
  have hdr : |d * r| ≤ M_PI := by
    rw [abs_mul, abs_of_nonneg hr0]
    calc |d| * r ≤ |d| * 1 := mul_le_mul_of_nonneg_left hr1 (abs_nonneg d)
      _ = |d| := mul_one _
      _ ≤ M_PI := hd
  rw [hleft, hright, abs_NormalizeAngle_of_abs_le M_PI hpi _ hdr,
    abs_NormalizeAngle_of_abs_le M_PI hpi _ hd, abs_mul, abs_of_nonneg hr0, mul_comm]

/-- Normalising twice is normalising once. -/
theorem NormalizeAngle_idem (M_PI : α) (hpi : 0 < M_PI) (θ : α) :
    NormalizeAngle M_PI (NormalizeAngle M_PI θ) = NormalizeAngle M_PI θ := by
  have h := NormalizeAngle_mem_Ico M_PI hpi θ
  exact NormalizeAngle_of_mem_Ico M_PI hpi _ h.1 h.2

/-- At the first sample time `slerp` returns the normal form of the first angle, on a
degenerate interval or not. -/
theorem slerp_at_t0 (M_PI : α) (hpi : 0 < M_PI) (a0 t0 a1 t1 : α) :
    slerp M_PI a0 t0 a1 t1 t0 = NormalizeAngle M_PI a0 := by
  by_cases h : |t1 - t0| ≤ 1e-6
  · exact slerp_of_degenerate M_PI a0 t0 a1 t1 t0 h
  · rw [slerp_of_not_degenerate M_PI a0 t0 a1 t1 t0 h, sub_self, zero_div, mul_zero,
      add_zero, NormalizeAngle_idem M_PI hpi]

/-- At the second sample time of a non-degenerate interval `slerp` returns the normal
form of the second angle. -/
theorem slerp_at_t1 (M_PI : α) (hpi : 0 < M_PI) (a0 t0 a1 t1 : α)
    (h : ¬ |t1 - t0| ≤ 1e-6) :
    slerp M_PI a0 t0 a1 t1 t1 = NormalizeAngle M_PI a1 := by
  obtain ⟨kd, hkd⟩ := foldedDiff_eq_add_period M_PI hpi a0 a1
  obtain ⟨k0, hk0⟩ := NormalizeAngle_eq_add_period M_PI hpi a0
  rw [slerp_of_not_degenerate M_PI a0 t0 a1 t1 t1 h,
    div_self (sub_ne_zero_of_not_degenerate t0 t1 h), mul_one]
  apply NormalizeAngle_congr M_PI hpi _ _ (k0 + kd)
  rw [hkd, hk0]; push_cast; ring

end SlerpLemmas

/-! ## Curvature: general lemmas -/

section CurvatureLemmas

/-- The squared speed is positive away from zero speed. -/
theorem sq_speed_pos (dx dy : ℝ) (h : (dx, dy) ≠ (0, 0)) : 0 < dx * dx + dy * dy := by
  have hne : dx ≠ 0 ∨ dy ≠ 0 := by
    by_contra hc
    push_neg at hc
    exact h (by rw [hc.1, hc.2])
  rcases hne with hx | hy
  · have := mul_self_pos.mpr hx
    nlinarith [mul_self_nonneg dy]
  · have := mul_self_pos.mpr hy
    nlinarith [mul_self_nonneg dx]

/-- The squared speed vanishes only at zero speed. -/
theorem sq_speed_eq_zero_iff (dx dy : ℝ) : dx * dx + dy * dy = 0 ↔ dx = 0 ∧ dy = 0 := by
  constructor
  · intro h
    constructor <;> nlinarith [mul_self_nonneg dx, mul_self_nonneg dy]
  · rintro ⟨hx, hy⟩
    rw [hx, hy]; ring

/-- The divisor of `CalcKappa` vanishes only at zero speed. -/
theorem CalcKappaDivisor_eq_zero_iff (dx dy : ℝ) :
    CalcKappaDivisor Real.sqrt dx dy = 0 ↔ dx = 0 ∧ dy = 0 := by
  unfold CalcKappaDivisor
  simp only
  rw [mul_eq_zero, Real.sqrt_eq_zero (by nlinarith [mul_self_nonneg dx, mul_self_nonneg dy]),
    or_self, sq_speed_eq_zero_iff]

/-- The divisor of `CalcDKappa` vanishes only at zero speed. -/
theorem CalcDKappaDivisor_eq_zero_iff (dx dy : ℝ) :
    CalcDKappaDivisor Real.sqrt dx dy = 0 ↔ dx = 0 ∧ dy = 0 := by
  unfold CalcDKappaDivisor
  simp only
  rw [mul_eq_zero, mul_eq_zero,
    Real.sqrt_eq_zero (by nlinarith [mul_self_nonneg dx, mul_self_nonneg dy]),
    or_self, or_self, sq_speed_eq_zero_iff]

/-- The divisor of `CalcKappa` is positive away from zero speed. -/
theorem CalcKappaDivisor_pos (dx dy : ℝ) (h : (dx, dy) ≠ (0, 0)) :
    0 < CalcKappaDivisor Real.sqrt dx dy := by
  have hb := sq_speed_pos dx dy h
  unfold CalcKappaDivisor
  exact mul_pos hb (Real.sqrt_pos.mpr hb)

/-- The divisor of `CalcDKappa` is positive away from zero speed. -/
theorem CalcDKappaDivisor_pos (dx dy : ℝ) (h : (dx, dy) ≠ (0, 0)) :
    0 < CalcDKappaDivisor Real.sqrt dx dy := by
  have hb := sq_speed_pos dx dy h
  unfold CalcDKappaDivisor
  exact mul_pos (mul_pos hb hb) (Real.sqrt_pos.mpr hb)

/-- For positive `b`, `b * b * sqrt b` is the real power `b ^ (5 / 2)`. -/
theorem mul_mul_sqrt_eq_rpow (b : ℝ) (hb : 0 < b) :
    b * b * Real.sqrt b = b ^ ((5 : ℝ) / 2) := by
  have h52 : ((5 : ℝ) / 2) = 2 + 1 / 2 := by norm_num
  rw [h52, Real.rpow_add hb, Real.sqrt_eq_rpow, Real.rpow_two]
  ring

/-- The quotient rule for `u / (b * sqrt b)` with `u' = a` and `b' = 2 d`, simplified. -/
theorem kappa_quotient_rule (a c d b : ℝ) (hb : 0 < b) :
    (a * (b * Real.sqrt b) - c * (2 * d * Real.sqrt b + b * (2 * d / (2 * Real.sqrt b))))
        / (b * Real.sqrt b) ^ 2
      = (a * b - 3 * c * d) / (b * b * Real.sqrt b) := by
  have hs : 0 < Real.sqrt b := Real.sqrt_pos.mpr hb
  have hb2 : b = Real.sqrt b * Real.sqrt b := (Real.mul_self_sqrt hb.le).symm
  generalize Real.sqrt b = s at hs hb2 ⊢
  subst hb2
  field_simp
  ring

/-- Along functions `x1, y1` with derivatives `x2, y2` at `t`, themselves with derivatives
`x3, y3` at `t`, the map `τ ↦ CalcKappa (x1 τ) (y1 τ) (x2 τ) (y2 τ)` has derivative
`CalcDKappa (x1 t) (y1 t) (x2 t) (y2 t) x3 y3` at `t`, when the speed is not zero. -/
theorem hasDerivAt_CalcKappa (x1 y1 x2 y2 : ℝ → ℝ) (x3 y3 t : ℝ)
    (hx1 : HasDerivAt x1 (x2 t) t) (hy1 : HasDerivAt y1 (y2 t) t)
    (hx2 : HasDerivAt x2 x3 t) (hy2 : HasDerivAt y2 y3 t)
    (hb : 0 < x1 t * x1 t + y1 t * y1 t) :
    HasDerivAt (fun τ => CalcKappa Real.sqrt (x1 τ) (y1 τ) (x2 τ) (y2 τ))
      (CalcDKappa Real.sqrt (x1 t) (y1 t) (x2 t) (y2 t) x3 y3) t := by
  have hs : 0 < Real.sqrt (x1 t * x1 t + y1 t * y1 t) := Real.sqrt_pos.mpr hb
  have hu : HasDerivAt (fun τ => x1 τ * y2 τ - y1 τ * x2 τ) (x1 t * y3 - y1 t * x3) t :=
    ((hx1.mul hy2).sub (hy1.mul hx2)).congr_deriv (by ring)
  have hv : HasDerivAt (fun τ => x1 τ * x1 τ + y1 τ * y1 τ)
      (2 * (x1 t * x2 t + y1 t * y2 t)) t :=
    ((hx1.mul hx1).add (hy1.mul hy1)).congr_deriv (by ring)
  have hsq := hv.sqrt hb.ne'
  have hD := hv.mul hsq
  have hq := hu.div hD (mul_pos hb hs).ne'
  refine hq.congr_deriv ?_
  unfold CalcDKappa
  exact kappa_quotient_rule _ _ _ _ hb

/-- The derivative of the curvature along a curve, in terms of `deriv`. -/
theorem deriv_CalcKappa_eq_CalcDKappa (x y : ℝ → ℝ) (t : ℝ)
    (hx1 : DifferentiableAt ℝ (deriv x) t) (hy1 : DifferentiableAt ℝ (deriv y) t)
    (hx2 : DifferentiableAt ℝ (deriv (deriv x)) t)
    (hy2 : DifferentiableAt ℝ (deriv (deriv y)) t)
    (hspeed : Real.sqrt (deriv x t ^ 2 + deriv y t ^ 2) ≠ 0) :
    deriv (fun τ => CalcKappa Real.sqrt (deriv x τ) (deriv y τ)
        (deriv (deriv x) τ) (deriv (deriv y) τ)) t
      = CalcDKappa Real.sqrt (deriv x t) (deriv y t) (deriv (deriv x) t) (deriv (deriv y) t)
          (deriv (deriv (deriv x)) t) (deriv (deriv (deriv y)) t) := by
  have hb : 0 < deriv x t * deriv x t + deriv y t * deriv y t := by
    have := Real.sqrt_ne_zero'.mp hspeed
    simpa [sq] using this
  exact (hasDerivAt_CalcKappa (deriv x) (deriv y) (deriv (deriv x)) (deriv (deriv y)) _ _ t
    hx1.hasDerivAt hy1.hasDerivAt hx2.hasDerivAt hy2.hasDerivAt hb).deriv

/-- Velocity of the sample curve, first coordinate. -/
theorem deriv_sampleCurveX : deriv sampleCurveX = fun _ => 2 := by
  funext t
  have h := ((hasDerivAt_id t).const_mul (2 : ℝ)).deriv
  simpa [sampleCurveX] using h

/-- Velocity of the sample curve, second coordinate. -/
theorem deriv_sampleCurveY : deriv sampleCurveY = fun t => 3 * t ^ 2 := by
  funext t
  unfold sampleCurveY
  simp

/-- Acceleration of the sample curve, first coordinate. -/
theorem deriv2_sampleCurveX : deriv (deriv sampleCurveX) = fun _ => 0 := by
  rw [deriv_sampleCurveX]
  funext t
  simp

/-- Acceleration of the sample curve, second coordinate. -/
theorem deriv2_sampleCurveY : deriv (deriv sampleCurveY) = fun t => 6 * t := by
  rw [deriv_sampleCurveY]
  funext t
  simp
  ring

/-- Third derivative of the sample curve, first coordinate. -/
theorem deriv3_sampleCurveX : deriv (deriv (deriv sampleCurveX)) = fun _ => 0 := by
  rw [deriv2_sampleCurveX]
  funext t
  simp

/-- Third derivative of the sample curve, second coordinate. -/
theorem deriv3_sampleCurveY : deriv (deriv (deriv sampleCurveY)) = fun _ => 6 := by
  rw [deriv2_sampleCurveY]
  funext t
  have h := ((hasDerivAt_id t).const_mul (6 : ℝ)).deriv
  simpa using h

/-- The square root of four. -/
theorem sqrt_four : Real.sqrt 4 = 2 := by
  rw [show (4 : ℝ) = 2 ^ 2 by norm_num]
  exact Real.sqrt_sq (by norm_num)

/-- The value of `CalcDKappa` on the sample curve at `t = 0`. -/
theorem CalcDKappa_sampleCurve_zero : CalcDKappa Real.sqrt 2 0 0 0 0 6 = 3 / 2 := by
  unfold CalcDKappa
  norm_num [sqrt_four]

/-- The sample curve is differentiable as often as needed, at every time. -/
theorem sampleCurve_differentiableAt (t : ℝ) :
    DifferentiableAt ℝ (deriv sampleCurveX) t ∧ DifferentiableAt ℝ (deriv sampleCurveY) t ∧
    DifferentiableAt ℝ (deriv (deriv sampleCurveX)) t ∧
    DifferentiableAt ℝ (deriv (deriv sampleCurveY)) t := by
  rw [deriv2_sampleCurveX, deriv2_sampleCurveY, deriv_sampleCurveX, deriv_sampleCurveY]
  refine ⟨?_, ?_, ?_, ?_⟩ <;> fun_prop

/-- The speed of the sample curve at `t = 0` is `2`. -/
theorem sampleCurve_speed_zero :
    Real.sqrt (deriv sampleCurveX 0 ^ 2 + deriv sampleCurveY 0 ^ 2) = 2 := by
  rw [deriv_sampleCurveX, deriv_sampleCurveY]
  norm_num [sqrt_four]

end CurvatureLemmas

/-! ## Plane and space geometry: general lemmas -/

section GeometryLemmas

variable {α : Type} [Field α]

/-- The cross product in coordinates. -/
theorem CrossProd_eq (o p1 p2 : Vector2d α) :
    CrossProd o p1 p2 = (p1.x - o.x) * (p2.y - o.y) - (p1.y - o.y) * (p2.x - o.x) := rfl

/-- First coordinate of `Transform`. -/
theorem Transform_x (pose : Pose α) (p : Vector3d α) :
    (Transform pose p).x =
      (1 - (2 * pose.orientation.y * pose.orientation.y
            + 2 * pose.orientation.z * pose.orientation.z)) * p.x
      + (2 * pose.orientation.y * pose.orientation.x
            - 2 * pose.orientation.z * pose.orientation.w) * p.y
      + (2 * pose.orientation.z * pose.orientation.x
            + 2 * pose.orientation.y * pose.orientation.w) * p.z
      + pose.position.x := by
  simp [Transform, Quaterniond.toRotationMatrix, Matrix.mulVec, Matrix.dotProduct,
    Fin.sum_univ_succ]
  ring

/-- Second coordinate of `Transform`. -/
theorem Transform_y (pose : Pose α) (p : Vector3d α) :
    (Transform pose p).y =
      (2 * pose.orientation.y * pose.orientation.x
            + 2 * pose.orientation.z * pose.orientation.w) * p.x
      + (1 - (2 * pose.orientation.x * pose.orientation.x
            + 2 * pose.orientation.z * pose.orientation.z)) * p.y
      + (2 * pose.orientation.z * pose.orientation.y
            - 2 * pose.orientation.x * pose.orientation.w) * p.z
      + pose.position.y := by
  simp [Transform, Quaterniond.toRotationMatrix, Matrix.mulVec, Matrix.dotProduct,
    Fin.sum_univ_succ]
  ring

/-- Third coordinate of `Transform`. -/
theorem Transform_z (pose : Pose α) (p : Vector3d α) :
    (Transform pose p).z =
      (2 * pose.orientation.z * pose.orientation.x
            - 2 * pose.orientation.y * pose.orientation.w) * p.x
      + (2 * pose.orientation.z * pose.orientation.y
            + 2 * pose.orientation.x * pose.orientation.w) * p.y
      + (1 - (2 * pose.orientation.x * pose.orientation.x
            + 2 * pose.orientation.y * pose.orientation.y)) * p.z
      + pose.position.z := by
  simp [Transform, Quaterniond.toRotationMatrix, Matrix.mulVec, Matrix.dotProduct,
    Fin.sum_univ_succ]
  ring

/-- Two vectors with the same coordinates are equal. -/
theorem Vector3d.eq_of_coords {β : Type} (a b : Vector3d β) (hx : a.x = b.x) (hy : a.y = b.y)
    (hz : a.z = b.z) : a = b := by
  cases a; cases b
  simp only [Vector3d.mk.injEq]
  exact ⟨hx, hy, hz⟩

/-- With a unit quaternion `Transform` keeps the squared distance of two points. -/
theorem Transform_sq_dist (pose : Pose α) (p q : Vector3d α)
    (hunit : pose.orientation.w ^ 2 + pose.orientation.x ^ 2 + pose.orientation.y ^ 2
      + pose.orientation.z ^ 2 = 1) :
    ((Transform pose p).x - (Transform pose q).x) ^ 2
      + ((Transform pose p).y - (Transform pose q).y) ^ 2
      + ((Transform pose p).z - (Transform pose q).z) ^ 2
    = (p.x - q.x) ^ 2 + (p.y - q.y) ^ 2 + (p.z - q.z) ^ 2 := by
  rw [Transform_x, Transform_y, Transform_z, Transform_x, Transform_y, Transform_z]
  linear_combination
    (4 * ((pose.orientation.y * (p.z - q.z) - pose.orientation.z * (p.y - q.y)) ^ 2
      + (pose.orientation.z * (p.x - q.x) - pose.orientation.x * (p.z - q.z)) ^ 2
      + (pose.orientation.x * (p.y - q.y) - pose.orientation.y * (p.x - q.x)) ^ 2)) * hunit

end GeometryLemmas

/-! ## Angle normalisation and angular distance over the reals -/

section AngleClaims

open Real

/-- Claim C1, as stated, fails: `NormalizeAngle π` is `-π`, which is not strictly above
`-π`, so the result can leave the interval `(-π, π]`. -/
theorem NormalizeAngle_pi_not_in_Ioc :
    NormalizeAngle π π = -π ∧ ¬ (-π < NormalizeAngle π π ∧ NormalizeAngle π π ≤ π) := by
  have h : NormalizeAngle π π = -π := by
    have h1 : NormalizeAngle π π = NormalizeAngle π (-π) :=
      NormalizeAngle_congr π pi_pos π (-π) 1 (by push_cast; ring)
    rw [h1, NormalizeAngle_of_mem_Ico π pi_pos (-π) le_rfl (by linarith [pi_pos])]
  refine ⟨h, ?_⟩
  rw [h]
  intro hc
  exact lt_irrefl _ hc.1

/-- Claim C1, amended: for every real angle `θ`, `NormalizeAngle θ` lies in the half-open
interval `[-π, π)`, that is `-π ≤ NormalizeAngle θ` and `NormalizeAngle θ < π`. -/
theorem NormalizeAngle_range (θ : ℝ) :
    -π ≤ NormalizeAngle π θ ∧ NormalizeAngle π θ < π :=
  NormalizeAngle_mem_Ico π pi_pos θ

/-- Claim C2: for every real angle `θ` and every integer `k`,
`NormalizeAngle (θ + 2πk) = NormalizeAngle θ`, exactly. -/
theorem NormalizeAngle_periodic (θ : ℝ) (k : ℤ) :
    NormalizeAngle π (θ + 2 * π * (k : ℝ)) = NormalizeAngle π θ :=
  NormalizeAngle_add_period π pi_pos θ k

/-- Claim C3: for every real angle `θ`, `NormalizeAngle θ` represents the same angle:
it is `θ + 2πk` for some integer `k`. -/
theorem NormalizeAngle_same_angle (θ : ℝ) :
    ∃ k : ℤ, NormalizeAngle π θ = θ + 2 * π * (k : ℝ) :=
  NormalizeAngle_eq_add_period π pi_pos θ

/-- Claim C4: `CalcAngleDist from to` is the signed shortest angular displacement:
`from + CalcAngleDist from to` differs from `to` by a whole number of turns, its magnitude
is at most that of `to - from + 2πk` for every integer `k`, and it is at most `π`. -/
theorem CalcAngleDist_shortest (from_ to_ : ℝ) :
    (∃ k : ℤ, from_ + CalcAngleDist π from_ to_ = to_ + 2 * π * (k : ℝ)) ∧
    (∀ k : ℤ, |CalcAngleDist π from_ to_| ≤ |to_ - from_ + 2 * π * (k : ℝ)|) ∧
    |CalcAngleDist π from_ to_| ≤ π := by
  refine ⟨?_, ?_, ?_⟩
  · obtain ⟨k, hk⟩ := NormalizeAngle_eq_add_period π pi_pos (to_ - from_)
    exact ⟨k, by unfold CalcAngleDist; rw [hk]; ring⟩
  · intro k
    exact abs_NormalizeAngle_le_abs_add_period π pi_pos (to_ - from_) k
  · exact abs_NormalizeAngle_le π pi_pos (to_ - from_)

end AngleClaims

/-! ## Linear and shortest-arc interpolation over the reals -/

section InterpolationClaims

open Real

/-- Claim C5, as stated, fails: on the degenerate interval `t0 = 0`, `t1 = 1e-7` the call
`lerp 0 0 1 1e-7 1e-7` (evaluation at `t1`) returns `x0 = 0`, not `x1 = 1`. -/
theorem lerp_at_t1_degenerate_ne :
    lerp (0 : ℝ) 0 1 1e-7 1e-7 = 0 ∧ lerp (0 : ℝ) 0 1 1e-7 1e-7 ≠ 1 := by
  have h : lerp (0 : ℝ) 0 1 1e-7 1e-7 = 0 :=
    lerp_of_degenerate 0 0 1 1e-7 1e-7 (by norm_num [abs_of_nonneg])
  rw [h]
  exact ⟨rfl, by norm_num⟩

/-- Claim C5, amended: for all real `x0, t0, x1, t1`, `lerp x0 t0 x1 t1 t0 = x0`, and
`lerp x0 t0 x1 t1 t1 = x1` whenever the interval is not degenerate, `|t1 - t0| > 1e-6`. -/
theorem lerp_boundary (x0 t0 x1 t1 : ℝ) :
    lerp x0 t0 x1 t1 t0 = x0 ∧ (1e-6 < |t1 - t0| → lerp x0 t0 x1 t1 t1 = x1) :=
  ⟨lerp_at_t0 x0 t0 x1 t1, fun h => lerp_at_t1 x0 t0 x1 t1 (not_le.mpr h)⟩

/-- Claim C5, amended, at `x0 = 2`, `t0 = 0`, `x1 = 5`, `t1 = 1`. -/
theorem lerp_boundary_witness :
    lerp (2 : ℝ) 0 5 1 0 = 2 ∧ (1e-6 : ℝ) < |1 - 0| ∧ lerp (2 : ℝ) 0 5 1 1 = 5 :=
  ⟨(lerp_boundary 2 0 5 1).1, by norm_num,
    (lerp_boundary 2 0 5 1).2 (by norm_num)⟩

/-- Claim C6: for all real `x0, x1, t0, t1, t` with `|t1 - t0| ≤ 1e-6`,
`lerp x0 t0 x1 t1 t = x0`: the first value is held, whatever `x1` and `t` are. -/
theorem lerp_degenerate_holds_first (x0 x1 t0 t1 t : ℝ) (h : |t1 - t0| ≤ 1e-6) :
    lerp x0 t0 x1 t1 t = x0 :=
  lerp_of_degenerate x0 t0 x1 t1 t h

/-- Claim C6 at `x0 = 3`, `x1 = 7`, `t0 = 0`, `t1 = 1e-7`, `t = 5`. -/
theorem lerp_degenerate_holds_first_witness :
    |(1e-7 : ℝ) - 0| ≤ 1e-6 ∧ lerp (3 : ℝ) 0 7 1e-7 5 = 3 :=
  ⟨by norm_num [abs_of_nonneg],
    lerp_degenerate_holds_first 3 7 0 1e-7 5 (by norm_num [abs_of_nonneg])⟩

/-- Claim C7: for all real `a0, a1, t0, t`, `slerp a0 t0 a1 (t0 + 1e-7) t` is
`NormalizeAngle a0`, and so is `slerp a0 t0 a1 t1 t` for every `t1` with
`|t1 - t0| ≤ 1e-6`, regardless of `a1` and `t`. -/
theorem slerp_degenerate_law (a0 a1 t0 t : ℝ) :
    slerp π a0 t0 a1 (t0 + 1e-7) t = NormalizeAngle π a0 ∧
    ∀ t1 : ℝ, |t1 - t0| ≤ 1e-6 → slerp π a0 t0 a1 t1 t = NormalizeAngle π a0 := by
  refine ⟨?_, fun t1 h => slerp_of_degenerate π a0 t0 a1 t1 t h⟩
  apply slerp_of_degenerate
  rw [add_sub_cancel_left]
  norm_num [abs_of_nonneg]

/-- Claim C7 at `a0 = 1`, `a1 = 2`, `t0 = 0`, `t1 = 1e-6`, `t = 3`. -/
theorem slerp_degenerate_law_witness :
    |(1e-6 : ℝ) - 0| ≤ 1e-6 ∧ slerp π 1 0 2 1e-6 3 = NormalizeAngle π 1 :=
  ⟨by norm_num [abs_of_nonneg],
    (slerp_degenerate_law 1 2 0 3).2 1e-6 (by norm_num [abs_of_nonneg])⟩

/-- Claim C8: when `|t1 - t0| > 1e-6` and `t` is between `t0` and `t1`, with
`r = (t - t0) / (t1 - t0)`, the shortest angular displacement from `a0` to
`slerp a0 t0 a1 t1 t` has magnitude `r` times that of the shortest displacement from `a0`
to `a1`.  Instance: halfway between 170° and -170° the result has magnitude `π`
(it is 180°), and is not `0`. -/
theorem slerp_shortest_arc :
    (∀ a0 a1 t0 t1 t : ℝ, 1e-6 < |t1 - t0| → ((t0 ≤ t ∧ t ≤ t1) ∨ (t1 ≤ t ∧ t ≤ t0)) →
      |CalcAngleDist π a0 (slerp π a0 t0 a1 t1 t)| =
        (t - t0) / (t1 - t0) * |CalcAngleDist π a0 a1|) ∧
    |slerp π (17 * π / 18) 0 (-(17 * π / 18)) 1 (1 / 2)| = π ∧
    slerp π (17 * π / 18) 0 (-(17 * π / 18)) 1 (1 / 2) ≠ 0 := by
  have hpi := pi_pos
  have hval : slerp π (17 * π / 18) 0 (-(17 * π / 18)) 1 (1 / 2) = -π := by
    have hnd : ¬ |(1 : ℝ) - 0| ≤ 1e-6 := by norm_num
    have h0 : NormalizeAngle π (17 * π / 18) = 17 * π / 18 :=
      NormalizeAngle_of_mem_Ico π hpi _ (by linarith) (by linarith)
    have h1 : NormalizeAngle π (-(17 * π / 18)) = -(17 * π / 18) :=
      NormalizeAngle_of_mem_Ico π hpi _ (by linarith) (by linarith)
    have hd : foldedDiff π (17 * π / 18) (-(17 * π / 18)) = π / 9 := by
      unfold foldedDiff
      simp only [h0, h1]
      rw [if_neg (by linarith), if_pos (by linarith)]
      ring
    rw [slerp_of_not_degenerate π _ 0 _ 1 _ hnd, h0, hd]
    have harg : 17 * π / 18 + π / 9 * ((1 / 2 - 0) / (1 - 0)) = -π + 2 * π * ((1 : ℤ) : ℝ) := by
      push_cast; ring
    rw [NormalizeAngle_congr π hpi _ (-π) 1 harg,
      NormalizeAngle_of_mem_Ico π hpi (-π) le_rfl (by linarith)]
  refine ⟨?_, ?_, ?_⟩
  · intro a0 a1 t0 t1 t hnd hbetween
    exact abs_CalcAngleDist_slerp π hpi a0 a1 t0 t1 t (not_le.mpr hnd) hbetween
  · rw [hval, abs_neg, abs_of_pos hpi]
  · rw [hval]
    exact neg_ne_zero.mpr hpi.ne'

/-- Claim C8 at `a0 = 0`, `a1 = 1`, `t0 = 0`, `t1 = 1`, `t = 1/2`. -/
theorem slerp_shortest_arc_witness :
    (1e-6 : ℝ) < |1 - 0| ∧
    (((0 : ℝ) ≤ 1 / 2 ∧ (1 / 2 : ℝ) ≤ 1) ∨ ((1 : ℝ) ≤ 1 / 2 ∧ (1 / 2 : ℝ) ≤ 0)) ∧
    |CalcAngleDist π 0 (slerp π 0 0 1 1 (1 / 2))| =
      (1 / 2 - 0) / (1 - 0) * |CalcAngleDist π 0 1| :=
  ⟨by norm_num, Or.inl ⟨by norm_num, by norm_num⟩,
    slerp_shortest_arc.1 0 1 0 1 (1 / 2) (by norm_num) (Or.inl ⟨by norm_num, by norm_num⟩)⟩

/-- Claim C9: `InterpolateTrajectoryPoint p0 p1 time` has `relative_time = time`, its
`path_point.theta` is `slerp` of the two headings, and each of `vel, acc, jerk,
steer_angle, x, y, s, kappa, dkappa` is `lerp` of the two values of that field, all taken
at `p0.relative_time`, `p1.relative_time` and the unclamped `time`. -/
theorem InterpolateTrajectoryPoint_fields (p0 p1 : TrajectoryPoint ℝ) (time : ℝ) :
    (InterpolateTrajectoryPoint π p0 p1 time).relative_time = time ∧
    (InterpolateTrajectoryPoint π p0 p1 time).path_point.theta =
      slerp π p0.path_point.theta p0.relative_time p1.path_point.theta p1.relative_time time ∧
    (InterpolateTrajectoryPoint π p0 p1 time).vel =
      lerp p0.vel p0.relative_time p1.vel p1.relative_time time ∧
    (InterpolateTrajectoryPoint π p0 p1 time).acc =
      lerp p0.acc p0.relative_time p1.acc p1.relative_time time ∧
    (InterpolateTrajectoryPoint π p0 p1 time).jerk =
      lerp p0.jerk p0.relative_time p1.jerk p1.relative_time time ∧
    (InterpolateTrajectoryPoint π p0 p1 time).steer_angle =
      lerp p0.steer_angle p0.relative_time p1.steer_angle p1.relative_time time ∧
    (InterpolateTrajectoryPoint π p0 p1 time).path_point.x =
      lerp p0.path_point.x p0.relative_time p1.path_point.x p1.relative_time time ∧
    (InterpolateTrajectoryPoint π p0 p1 time).path_point.y =
      lerp p0.path_point.y p0.relative_time p1.path_point.y p1.relative_time time ∧
    (InterpolateTrajectoryPoint π p0 p1 time).path_point.s =
      lerp p0.path_point.s p0.relative_time p1.path_point.s p1.relative_time time ∧
    (InterpolateTrajectoryPoint π p0 p1 time).path_point.kappa =
      lerp p0.path_point.kappa p0.relative_time p1.path_point.kappa p1.relative_time time ∧
    (InterpolateTrajectoryPoint π p0 p1 time).path_point.dkappa =
      lerp p0.path_point.dkappa p0.relative_time p1.path_point.dkappa p1.relative_time time :=
  ⟨rfl, rfl, rfl, rfl, rfl, rfl, rfl, rfl, rfl, rfl, rfl⟩

/-- Claim C19: off the degenerate interval, `|t1 - t0| > 1e-6`,
`slerp a0 t0 a1 t1 t0 = NormalizeAngle a0` and `slerp a0 t0 a1 t1 t1 = NormalizeAngle a1`. -/
theorem slerp_endpoints (a0 a1 t0 t1 : ℝ) (h : 1e-6 < |t1 - t0|) :
    slerp π a0 t0 a1 t1 t0 = NormalizeAngle π a0 ∧
    slerp π a0 t0 a1 t1 t1 = NormalizeAngle π a1 :=
  ⟨slerp_at_t0 π pi_pos a0 t0 a1 t1, slerp_at_t1 π pi_pos a0 t0 a1 t1 (not_le.mpr h)⟩

/-- Claim C19 at `a0 = 1`, `a1 = 5`, `t0 = 0`, `t1 = 2`. -/
theorem slerp_endpoints_witness :
    (1e-6 : ℝ) < |2 - 0| ∧
    slerp π 1 0 5 2 0 = NormalizeAngle π 1 ∧ slerp π 1 0 5 2 2 = NormalizeAngle π 5 :=
  ⟨by norm_num, slerp_endpoints 1 5 0 2 (by norm_num)⟩

/-- Claim C20: when `p0.path_point.theta` is already normalised,
`InterpolateTrajectoryPoint p0 p1 p0.relative_time` equals `p0` in every field, on a
degenerate interval or not. -/
theorem InterpolateTrajectoryPoint_at_first (p0 p1 : TrajectoryPoint ℝ)
    (h : NormalizeAngle π p0.path_point.theta = p0.path_point.theta) :
    InterpolateTrajectoryPoint π p0 p1 p0.relative_time = p0 := by
  obtain ⟨⟨x, y, s, theta, kappa, dkappa⟩, relative_time, vel, acc, jerk, steer_angle⟩ := p0
  simp only at h
  simp only [InterpolateTrajectoryPoint, lerp_at_t0, slerp_at_t0 π pi_pos, h]

/-- Claim C20 at a first sample with heading `0` at time `1` and a second sample at
time `3`. -/
theorem InterpolateTrajectoryPoint_at_first_witness :
    NormalizeAngle π (0 : ℝ) = 0 ∧
    InterpolateTrajectoryPoint π
        (⟨⟨1, 2, 3, 0, 4, 5⟩, 1, 6, 7, 8, 9⟩ : TrajectoryPoint ℝ)
        ⟨⟨10, 20, 30, 1, 40, 50⟩, 3, 60, 70, 80, 90⟩ 1
      = ⟨⟨1, 2, 3, 0, 4, 5⟩, 1, 6, 7, 8, 9⟩ :=
  ⟨NormalizeAngle_of_mem_Ico π pi_pos 0 (by linarith [pi_pos]) pi_pos,
    InterpolateTrajectoryPoint_at_first ⟨⟨1, 2, 3, 0, 4, 5⟩, 1, 6, 7, 8, 9⟩
      ⟨⟨10, 20, 30, 1, 40, 50⟩, 3, 60, 70, 80, 90⟩
      (NormalizeAngle_of_mem_Ico π pi_pos 0 (by linarith [pi_pos]) pi_pos)⟩

end InterpolationClaims

/-! ## Curvature over the reals -/

section CurvatureClaims

open Real

/-- Claim C10: for every radius `R > 0` and angle `φ`, `CalcKappa` at the velocity
`(-R sin φ, R cos φ)` and acceleration `(-R cos φ, -R sin φ)` of counter-clockwise
circular motion is `1 / R`; in particular `CalcKappa 0 1 (-1) 0 = 1`. -/
theorem CalcKappa_circle :
    (∀ R φ : ℝ, 0 < R →
      CalcKappa Real.sqrt (-R * sin φ) (R * cos φ) (-R * cos φ) (-R * sin φ) = 1 / R) ∧
    CalcKappa Real.sqrt 0 1 (-1) 0 = 1 := by
  constructor
  · intro R φ hR
    have hv : -R * sin φ * (-R * sin φ) + R * cos φ * (R * cos φ) = R ^ 2 := by
      have := sin_sq_add_cos_sq φ
      linear_combination R ^ 2 * this
    have hu : -R * sin φ * (-R * sin φ) - R * cos φ * (-R * cos φ) = R ^ 2 := by
      have := sin_sq_add_cos_sq φ
      linear_combination R ^ 2 * this
    unfold CalcKappa
    simp only [hu, hv, Real.sqrt_sq hR.le]
    field_simp
  · unfold CalcKappa
    norm_num

/-- Claim C10 at `R = 2`, `φ = 0`. -/
theorem CalcKappa_circle_witness :
    (0 : ℝ) < 2 ∧
    CalcKappa Real.sqrt (-2 * sin 0) (2 * cos 0) (-2 * cos 0) (-2 * sin 0) = 1 / 2 :=
  ⟨by norm_num, CalcKappa_circle.1 2 0 (by norm_num)⟩

/-- Claim C11: for every velocity `(dx, dy) ≠ (0, 0)` with zero acceleration,
`CalcKappa dx dy 0 0 = 0`. -/
theorem CalcKappa_straight_line (dx dy : ℝ) (h : (dx, dy) ≠ (0, 0)) :
    CalcKappa Real.sqrt dx dy 0 0 = 0 := by
  have hpos := CalcKappaDivisor_pos dx dy h
  have hform : CalcKappa Real.sqrt dx dy 0 0
      = (dx * 0 - dy * 0) / CalcKappaDivisor Real.sqrt dx dy := rfl
  rw [hform, div_eq_iff hpos.ne']
  ring

/-- Claim C11 at `dx = 3`, `dy = 4`. -/
theorem CalcKappa_straight_line_witness :
    ((3 : ℝ), (4 : ℝ)) ≠ (0, 0) ∧ CalcKappa Real.sqrt 3 4 0 0 = 0 :=
  ⟨by simp, CalcKappa_straight_line 3 4 (by simp)⟩

/-- Claim C12: for `(dx, dy) ≠ (0, 0)`, `CalcDKappa` is `(a * b - 3 * c * d) / b ^ (5/2)`
with `a = dx * dddy - dy * dddx`, `b = dx ^ 2 + dy ^ 2`, `c = dx * ddy - dy * ddx` and
`d = dx * ddx + dy * ddy`. -/
theorem CalcDKappa_formula (dx dy ddx ddy dddx dddy : ℝ) (h : (dx, dy) ≠ (0, 0)) :
    CalcDKappa Real.sqrt dx dy ddx ddy dddx dddy =
      ((dx * dddy - dy * dddx) * (dx ^ 2 + dy ^ 2)
          - 3 * (dx * ddy - dy * ddx) * (dx * ddx + dy * ddy))
        / (dx ^ 2 + dy ^ 2) ^ ((5 : ℝ) / 2) := by
  have hb := sq_speed_pos dx dy h
  unfold CalcDKappa
  simp only
  rw [mul_mul_sqrt_eq_rpow _ hb]
  simp only [sq]

/-- Claim C12 at `dx = 2`, `dy = 0`, `ddx = ddy = dddx = 0`, `dddy = 6`. -/
theorem CalcDKappa_formula_witness :
    ((2 : ℝ), (0 : ℝ)) ≠ (0, 0) ∧
    CalcDKappa Real.sqrt 2 0 0 0 0 6 =
      ((2 * 6 - 0 * 0) * ((2 : ℝ) ^ 2 + 0 ^ 2) - 3 * (2 * 0 - 0 * 0) * (2 * 0 + 0 * 0))
        / ((2 : ℝ) ^ 2 + 0 ^ 2) ^ ((5 : ℝ) / 2) :=
  ⟨by simp, CalcDKappa_formula 2 0 0 0 0 6 (by simp)⟩

/-- Claim C18: the divisions of `CalcKappa` and `CalcDKappa` are by `v * sqrt v` and
`b * b * sqrt b` with `v = b = dx ^ 2 + dy ^ 2`; each divisor is zero exactly when
`dx = 0` and `dy = 0`, and both are strictly positive when `(dx, dy) ≠ (0, 0)`. -/
theorem curvature_divisor_zero_iff (dx dy : ℝ) :
    (∀ ddx ddy : ℝ, CalcKappa Real.sqrt dx dy ddx ddy =
      (dx * ddy - dy * ddx) / CalcKappaDivisor Real.sqrt dx dy) ∧
    (∀ ddx ddy dddx dddy : ℝ, CalcDKappa Real.sqrt dx dy ddx ddy dddx dddy =
      ((dx * dddy - dy * dddx) * (dx * dx + dy * dy)
          - 3 * (dx * ddy - dy * ddx) * (dx * ddx + dy * ddy))
        / CalcDKappaDivisor Real.sqrt dx dy) ∧
    CalcKappaDivisor Real.sqrt dx dy = (dx ^ 2 + dy ^ 2) * Real.sqrt (dx ^ 2 + dy ^ 2) ∧
    CalcDKappaDivisor Real.sqrt dx dy =
      (dx ^ 2 + dy ^ 2) * (dx ^ 2 + dy ^ 2) * Real.sqrt (dx ^ 2 + dy ^ 2) ∧
    (CalcKappaDivisor Real.sqrt dx dy = 0 ↔ dx = 0 ∧ dy = 0) ∧
    (CalcDKappaDivisor Real.sqrt dx dy = 0 ↔ dx = 0 ∧ dy = 0) ∧
    ((dx, dy) ≠ (0, 0) →
      0 < CalcKappaDivisor Real.sqrt dx dy ∧ 0 < CalcDKappaDivisor Real.sqrt dx dy) := by
  refine ⟨fun _ _ => rfl, fun _ _ _ _ => rfl, ?_, ?_,
    CalcKappaDivisor_eq_zero_iff dx dy, CalcDKappaDivisor_eq_zero_iff dx dy,
    fun h => ⟨CalcKappaDivisor_pos dx dy h, CalcDKappaDivisor_pos dx dy h⟩⟩
  · unfold CalcKappaDivisor
    simp only [sq]
  · unfold CalcDKappaDivisor
    simp only [sq]

/-- Claim C18 at `dx = 3`, `dy = 4`. -/
theorem curvature_divisor_zero_iff_witness :
    ((3 : ℝ), (4 : ℝ)) ≠ (0, 0) ∧
    0 < CalcKappaDivisor Real.sqrt 3 4 ∧ 0 < CalcDKappaDivisor Real.sqrt 3 4 :=
  ⟨by simp, (curvature_divisor_zero_iff 3 4).2.2.2.2.2.2 (by simp)⟩

/-- Claim C13, as stated, fails: on the smooth curve `t ↦ (2 t, t ^ 3)` at `t = 0`, where
the speed is `2`, `CalcDKappa` of the derivatives is `3 / 2`, while the derivative of
`t ↦ CalcKappa` divided by the speed is `3 / 4`. -/
theorem CalcDKappa_ne_deriv_div_speed :
    ContDiff ℝ 3 sampleCurveX ∧ ContDiff ℝ 3 sampleCurveY ∧
    Real.sqrt (deriv sampleCurveX 0 ^ 2 + deriv sampleCurveY 0 ^ 2) ≠ 0 ∧
    CalcDKappa Real.sqrt (deriv sampleCurveX 0) (deriv sampleCurveY 0)
        (deriv (deriv sampleCurveX) 0) (deriv (deriv sampleCurveY) 0)
        (deriv (deriv (deriv sampleCurveX)) 0) (deriv (deriv (deriv sampleCurveY)) 0)
      = 3 / 2 ∧
    deriv (fun τ => CalcKappa Real.sqrt (deriv sampleCurveX τ) (deriv sampleCurveY τ)
        (deriv (deriv sampleCurveX) τ) (deriv (deriv sampleCurveY) τ)) 0
        / Real.sqrt (deriv sampleCurveX 0 ^ 2 + deriv sampleCurveY 0 ^ 2)
      = 3 / 4 ∧
    CalcDKappa Real.sqrt (deriv sampleCurveX 0) (deriv sampleCurveY 0)
        (deriv (deriv sampleCurveX) 0) (deriv (deriv sampleCurveY) 0)
        (deriv (deriv (deriv sampleCurveX)) 0) (deriv (deriv (deriv sampleCurveY)) 0)
      ≠ deriv (fun τ => CalcKappa Real.sqrt (deriv sampleCurveX τ) (deriv sampleCurveY τ)
          (deriv (deriv sampleCurveX) τ) (deriv (deriv sampleCurveY) τ)) 0
        / Real.sqrt (deriv sampleCurveX 0 ^ 2 + deriv sampleCurveY 0 ^ 2) := by
  have hspeed := sampleCurve_speed_zero
  have hne : Real.sqrt (deriv sampleCurveX 0 ^ 2 + deriv sampleCurveY 0 ^ 2) ≠ 0 := by
    rw [hspeed]; norm_num
  obtain ⟨hx1, hy1, hx2, hy2⟩ := sampleCurve_differentiableAt 0
  have hval : CalcDKappa Real.sqrt (deriv sampleCurveX 0) (deriv sampleCurveY 0)
      (deriv (deriv sampleCurveX) 0) (deriv (deriv sampleCurveY) 0)
      (deriv (deriv (deriv sampleCurveX)) 0) (deriv (deriv (deriv sampleCurveY)) 0)
      = 3 / 2 := by
    rw [deriv3_sampleCurveX, deriv3_sampleCurveY, deriv2_sampleCurveX, deriv2_sampleCurveY,
      deriv_sampleCurveX, deriv_sampleCurveY]
    norm_num [CalcDKappa_sampleCurve_zero]
  have hder := deriv_CalcKappa_eq_CalcDKappa sampleCurveX sampleCurveY 0 hx1 hy1 hx2 hy2 hne
  have hquot : deriv (fun τ => CalcKappa Real.sqrt (deriv sampleCurveX τ)
      (deriv sampleCurveY τ) (deriv (deriv sampleCurveX) τ) (deriv (deriv sampleCurveY) τ)) 0
      / Real.sqrt (deriv sampleCurveX 0 ^ 2 + deriv sampleCurveY 0 ^ 2) = 3 / 4 := by
    rw [hder, hval, hspeed]; norm_num
  refine ⟨?_, ?_, hne, hval, hquot, ?_⟩
  · exact contDiff_const.mul contDiff_id
  · exact contDiff_id.pow 3
  · rw [hquot, hval]; norm_num

/-- Claim C13, amended: for every planar curve `t ↦ (x t, y t)` whose first and second
derivatives are differentiable at `t`, and whose speed at `t` is not zero, `CalcDKappa` of
the first three derivatives at `t` is the derivative with respect to the curve parameter
of `t ↦ CalcKappa (x' t) (y' t) (x'' t) (y'' t)` at `t`, not divided by the speed. -/
theorem CalcDKappa_eq_deriv_CalcKappa (x y : ℝ → ℝ) (t : ℝ)
    (hx1 : DifferentiableAt ℝ (deriv x) t) (hy1 : DifferentiableAt ℝ (deriv y) t)
    (hx2 : DifferentiableAt ℝ (deriv (deriv x)) t)
    (hy2 : DifferentiableAt ℝ (deriv (deriv y)) t)
    (hspeed : Real.sqrt (deriv x t ^ 2 + deriv y t ^ 2) ≠ 0) :
    CalcDKappa Real.sqrt (deriv x t) (deriv y t) (deriv (deriv x) t) (deriv (deriv y) t)
        (deriv (deriv (deriv x)) t) (deriv (deriv (deriv y)) t)
      = deriv (fun τ => CalcKappa Real.sqrt (deriv x τ) (deriv y τ)
          (deriv (deriv x) τ) (deriv (deriv y) τ)) t :=
  (deriv_CalcKappa_eq_CalcDKappa x y t hx1 hy1 hx2 hy2 hspeed).symm

/-- Claim C13, amended, on the curve `t ↦ (2 t, t ^ 3)` at `t = 0`. -/
theorem CalcDKappa_eq_deriv_CalcKappa_witness :
    (DifferentiableAt ℝ (deriv sampleCurveX) 0 ∧ DifferentiableAt ℝ (deriv sampleCurveY) 0 ∧
      DifferentiableAt ℝ (deriv (deriv sampleCurveX)) 0 ∧
      DifferentiableAt ℝ (deriv (deriv sampleCurveY)) 0) ∧
    Real.sqrt (deriv sampleCurveX 0 ^ 2 + deriv sampleCurveY 0 ^ 2) ≠ 0 ∧
    CalcDKappa Real.sqrt (deriv sampleCurveX 0) (deriv sampleCurveY 0)
        (deriv (deriv sampleCurveX) 0) (deriv (deriv sampleCurveY) 0)
        (deriv (deriv (deriv sampleCurveX)) 0) (deriv (deriv (deriv sampleCurveY)) 0)
      = deriv (fun τ => CalcKappa Real.sqrt (deriv sampleCurveX τ) (deriv sampleCurveY τ)
          (deriv (deriv sampleCurveX) τ) (deriv (deriv sampleCurveY) τ)) 0 :=
  ⟨sampleCurve_differentiableAt 0,
    by rw [sampleCurve_speed_zero]; norm_num,
    CalcDKappa_eq_deriv_CalcKappa sampleCurveX sampleCurveY 0
      (sampleCurve_differentiableAt 0).1 (sampleCurve_differentiableAt 0).2.1
      (sampleCurve_differentiableAt 0).2.2.1 (sampleCurve_differentiableAt 0).2.2.2
      (by rw [sampleCurve_speed_zero]; norm_num)⟩

end CurvatureClaims

/-! ## Cross product and rigid transform over the reals -/

section GeometryClaims

open Real

/-- Claim C14: for every origin `o`, non-zero vector `v`, scale `s > 0` and angle
`0 < φ < π`, with `p1 = o + v` and `p2 = o + s * Rot(φ) v`, `CrossProd o p1 p2 > 0` and
`CrossProd o p2 p1 < 0`; in particular `CrossProd (0,0) (1,0) (0,1) > 0` and
`CrossProd (0,0) (0,1) (1,0) < 0`. -/
theorem CrossProd_turn_direction :
    (∀ (o v : Vector2d ℝ) (s φ : ℝ), (v.x, v.y) ≠ (0, 0) → 0 < s → 0 < φ → φ < π →
      0 < CrossProd o ⟨o.x + v.x, o.y + v.y⟩
          ⟨o.x + s * (cos φ * v.x - sin φ * v.y), o.y + s * (sin φ * v.x + cos φ * v.y)⟩ ∧
      CrossProd o
          ⟨o.x + s * (cos φ * v.x - sin φ * v.y), o.y + s * (sin φ * v.x + cos φ * v.y)⟩
          ⟨o.x + v.x, o.y + v.y⟩ < 0) ∧
    0 < CrossProd (⟨0, 0⟩ : Vector2d ℝ) ⟨1, 0⟩ ⟨0, 1⟩ ∧
    CrossProd (⟨0, 0⟩ : Vector2d ℝ) ⟨0, 1⟩ ⟨1, 0⟩ < 0 := by
  refine ⟨?_, ?_, ?_⟩
  · intro o v s φ hv hs h0 hpi
    have hsin : 0 < sin φ := sin_pos_of_pos_of_lt_pi h0 hpi
    have hsq := sq_speed_pos v.x v.y hv
    have hprod : 0 < s * sin φ * (v.x * v.x + v.y * v.y) := mul_pos (mul_pos hs hsin) hsq
    rw [CrossProd_eq, CrossProd_eq]
    constructor
    · calc (0 : ℝ) < s * sin φ * (v.x * v.x + v.y * v.y) := hprod
        _ = _ := by ring
    · have : (o.x + s * (cos φ * v.x - sin φ * v.y) - o.x) * (o.y + v.y - o.y)
          - (o.y + s * (sin φ * v.x + cos φ * v.y) - o.y) * (o.x + v.x - o.x)
          = -(s * sin φ * (v.x * v.x + v.y * v.y)) := by ring
      rw [this]
      linarith
  · rw [CrossProd_eq]; norm_num
  · rw [CrossProd_eq]; norm_num

/-- Claim C14 at `o = (1, 2)`, `v = (1, 0)`, `s = 2`, `φ = π / 2`. -/
theorem CrossProd_turn_direction_witness :
    ((1 : ℝ), (0 : ℝ)) ≠ (0, 0) ∧ (0 : ℝ) < 2 ∧ 0 < π / 2 ∧ π / 2 < π ∧
    0 < CrossProd (⟨1, 2⟩ : Vector2d ℝ) ⟨1 + 1, 2 + 0⟩
        ⟨1 + 2 * (cos (π / 2) * 1 - sin (π / 2) * 0),
          2 + 2 * (sin (π / 2) * 1 + cos (π / 2) * 0)⟩ :=
  ⟨by simp, by norm_num, by linarith [pi_pos], by linarith [pi_pos],
    (CrossProd_turn_direction.1 ⟨1, 2⟩ ⟨1, 0⟩ 2 (π / 2) (by simp) (by norm_num)
      (by linarith [pi_pos]) (by linarith [pi_pos])).1⟩

/-- Claim C15: `Transform` with the identity pose (position `(0, 0, 0)`, orientation
`w = 1`, `x = y = z = 0`) returns every point unchanged. -/
theorem Transform_identity (p : Vector3d ℝ) :
    Transform ⟨⟨0, 0, 0⟩, ⟨0, 0, 0, 1⟩⟩ p = p := by
  apply Vector3d.eq_of_coords
  · rw [Transform_x]; simp
  · rw [Transform_y]; simp
  · rw [Transform_z]; simp

/-- Claim C16: for a pose with a unit orientation quaternion, `Transform` keeps the
Euclidean distance of any two points, and sends the origin to the position of the pose. -/
theorem Transform_rigid (pose : Pose ℝ) (p q : Vector3d ℝ)
    (hunit : pose.orientation.w ^ 2 + pose.orientation.x ^ 2 + pose.orientation.y ^ 2
      + pose.orientation.z ^ 2 = 1) :
    Real.sqrt (((Transform pose p).x - (Transform pose q).x) ^ 2
        + ((Transform pose p).y - (Transform pose q).y) ^ 2
        + ((Transform pose p).z - (Transform pose q).z) ^ 2)
      = Real.sqrt ((p.x - q.x) ^ 2 + (p.y - q.y) ^ 2 + (p.z - q.z) ^ 2) ∧
    Transform pose ⟨0, 0, 0⟩ = ⟨pose.position.x, pose.position.y, pose.position.z⟩ := by
  constructor
  · rw [Transform_sq_dist pose p q hunit]
  · apply Vector3d.eq_of_coords
    · rw [Transform_x]; simp
    · rw [Transform_y]; simp
    · rw [Transform_z]; simp

/-- Claim C16 at the pose with position `(1, 2, 3)` and orientation `w = 3/5`, `x = 0`,
`y = 0`, `z = 4/5`, and the points `(1, 0, 0)` and `(0, 0, 0)`. -/
theorem Transform_rigid_witness :
    ((3 / 5 : ℝ) ^ 2 + (0 : ℝ) ^ 2 + (0 : ℝ) ^ 2 + (4 / 5 : ℝ) ^ 2 = 1) ∧
    Real.sqrt (((Transform (⟨⟨1, 2, 3⟩, ⟨0, 0, 4 / 5, 3 / 5⟩⟩ : Pose ℝ) ⟨1, 0, 0⟩).x
          - (Transform (⟨⟨1, 2, 3⟩, ⟨0, 0, 4 / 5, 3 / 5⟩⟩ : Pose ℝ) ⟨0, 0, 0⟩).x) ^ 2
        + ((Transform (⟨⟨1, 2, 3⟩, ⟨0, 0, 4 / 5, 3 / 5⟩⟩ : Pose ℝ) ⟨1, 0, 0⟩).y
          - (Transform (⟨⟨1, 2, 3⟩, ⟨0, 0, 4 / 5, 3 / 5⟩⟩ : Pose ℝ) ⟨0, 0, 0⟩).y) ^ 2
        + ((Transform (⟨⟨1, 2, 3⟩, ⟨0, 0, 4 / 5, 3 / 5⟩⟩ : Pose ℝ) ⟨1, 0, 0⟩).z
          - (Transform (⟨⟨1, 2, 3⟩, ⟨0, 0, 4 / 5, 3 / 5⟩⟩ : Pose ℝ) ⟨0, 0, 0⟩).z) ^ 2)
      = Real.sqrt (((1 : ℝ) - 0) ^ 2 + ((0 : ℝ) - 0) ^ 2 + ((0 : ℝ) - 0) ^ 2) :=
  ⟨by norm_num,
    (Transform_rigid ⟨⟨1, 2, 3⟩, ⟨0, 0, 4 / 5, 3 / 5⟩⟩ ⟨1, 0, 0⟩ ⟨0, 0, 0⟩ (by norm_num)).1⟩

end GeometryClaims

end MathUtils
end planning
